import Mathlib

/-
Verification of the compress_images tool (src/src/main.rs) against its
natural-language specification.

The Rust program is shallowly embedded in Lean:
  * is_image_file       (main.rs lines 83-93)  — pure extension predicate,
    modelled on the file-name level with Rust Path::extension semantics
    (the extension is the part of the file name after its last dot,
    provided that dot is not the leading character; the special file
    name ".." has no extension).  Lower-casing is modelled per character
    (basic-latin case folding, which agrees with Rust to_lowercase on
    the ASCII whitelist domain).
  * create_zip          (main.rs lines 95-139) — modelled as a sequence of
    fallible steps driven by explicit oracles; the filesystem effect is
    recorded as what ends up at the target path and whether a .tmp
    artifact remains.
  * the zip-name collision loop of compress_images (lines 164-171),
  * compress_images     (lines 141-189),
  * clean_dir           (lines 191-246),
  * process_directory_recursively (lines 33-81) — over an explicit
    directory tree (mutual inductive FsTree/Forest) whose nodes carry
    oracles for read_dir success and UTF-8 validity of the entry name,
  * main                (lines 248-284) — as an exit-code function.
Machine integers do not occur (all counters are usize values far below
overflow); file sizes are Nat.
-/

/-! ## Image extension predicate (is_image_file, main.rs lines 83-93) -/

def imageExts : List String :=
  ["jpg", "jpeg", "png", "gif", "bmp", "webp", "tiff", "avif", "heic", "svg"]

/-- Per-character lower-casing of a character list, as a string. -/
def lowerMk (cs : List Char) : String :=
  String.mk (cs.map Char.toLower)

/-- Characters strictly after the last dot of the list, if any dot occurs. -/
def afterLastDot : List Char → Option (List Char)
  | [] => none
  | c :: rest =>
    match afterLastDot rest with
    | some s => some s
    | none => if c = '.' then some rest else none

/-- Rust Path::extension followed by the whitelist test, on the
character list of a file name: the extension is the part after the last
dot, absent when there is no dot or when the only dot is the leading
character (hidden files). -/
def isImageChars (cs : List Char) : Bool :=
  match cs with
  | [] => false
  | _ :: rest =>
    match afterLastDot rest with
    | some s => imageExts.contains (lowerMk s)
    | none => false

/-- main.rs lines 83-93: true iff the extension of the file name, lower-cased,
is in the fixed whitelist.  Rust gives the special name ".." no
extension. -/
def is_image_file (name : String) : Bool :=
  if name = ".." then false else isImageChars name.toList

/-! Spec-side definitions for claim C9.  The spec glosses the extension
as the last dot-separated segment of the name. -/

/-- Dot-separated segments of a character list (always nonempty). -/
def dotSegs : List Char → List (List Char)
  | [] => [[]]
  | c :: rest =>
    match dotSegs rest with
    | [] => [[]]
    | s :: ss => if c = '.' then [] :: s :: ss else (c :: s) :: ss

/-- Last segment of a segment list (empty-list fallback is never hit). -/
def lastSeg (segs : List (List Char)) : List Char :=
  (segs.getLast?).getD []

/-- Modelled from the spec words of C9: true iff the last dot-separated
segment of the name, lower-cased, is in the whitelist, where a name has
an extension as soon as it contains a dot at all. -/
def specIsImage (name : String) : Bool :=
  let segs := dotSegs name.toList
  if 2 ≤ segs.length then imageExts.contains (lowerMk (lastSeg segs))
  else false

/-- The image predicate as amended: as specIsImage, except that a name
whose only dot is its leading character (a hidden file such as ".jpg")
has no extension. -/
def specIsImageAmended (name : String) : Bool :=
  let segs := dotSegs name.toList
  if 2 ≤ segs.length ∧ ¬(segs.length = 2 ∧ segs.head? = some []) then
    imageExts.contains (lowerMk (lastSeg segs))
  else false

lemma dotSegs_ne_nil (cs : List Char) : dotSegs cs ≠ [] := by
  cases cs with
  | nil => simp [dotSegs]
  | cons c rest =>
    simp only [dotSegs]
    cases h : dotSegs rest with
    | nil => simp
    | cons s ss =>
      by_cases hc : c = '.' <;> simp [hc]

/-- Relation between the code-side split (after the last dot) and the
spec-side segmentation: either there is no dot and the segmentation is
trivial, or the suffix after the last dot is the last segment of a
segmentation with at least two segments. -/
lemma afterLastDot_dotSegs (cs : List Char) :
    (afterLastDot cs = none ∧ dotSegs cs = [cs]) ∨
    (∃ s, afterLastDot cs = some s ∧ 2 ≤ (dotSegs cs).length ∧
      (dotSegs cs).getLast? = some s) := by
  induction cs with
  | nil => left; exact ⟨rfl, rfl⟩
  | cons c rest ih =>
    rcases ih with ⟨h1, h2⟩ | ⟨s, h1, h2, h3⟩
    · by_cases hc : c = '.'
      · right
        refine ⟨rest, ?_, ?_, ?_⟩
        · simp [afterLastDot, h1, hc]
        · simp [dotSegs, h2, hc]
        · simp [dotSegs, h2, hc]
      · left
        constructor
        · simp [afterLastDot, h1, hc]
        · simp [dotSegs, h2, hc]
    · right
      obtain ⟨s0, ss0, hss⟩ : ∃ s0 ss0, dotSegs rest = s0 :: ss0 := by
        cases h : dotSegs rest with
        | nil => exact absurd h (dotSegs_ne_nil rest)
        | cons a b => exact ⟨a, b, rfl⟩
      have hss0 : ss0 ≠ [] := by
        intro h
        rw [hss, h] at h2
        simp at h2
      refine ⟨s, ?_, ?_, ?_⟩
      · simp [afterLastDot, h1]
      · by_cases hc : c = '.' <;>
          simp [dotSegs, hss, hc] <;>
          · rw [hss] at h2; simp at h2; omega
      · rw [hss] at h3
        by_cases hc : c = '.'
        · simpa [dotSegs, hss, hc, List.getLast?_cons_cons] using h3
        · rcases ss0 with _ | ⟨t, ts⟩
          · exact absurd rfl hss0
          · simpa [dotSegs, hss, hc, List.getLast?_cons_cons] using h3

/-- Code-side and amended spec-side predicates agree on every character
list. -/
lemma isImageChars_eq_amended (cs : List Char) :
    isImageChars cs = (if 2 ≤ (dotSegs cs).length ∧
        ¬((dotSegs cs).length = 2 ∧ (dotSegs cs).head? = some []) then
      imageExts.contains (lowerMk (lastSeg (dotSegs cs)))
    else false) := by
  cases cs with
  | nil => simp [isImageChars, dotSegs]
  | cons c rest =>
    rcases afterLastDot_dotSegs rest with ⟨h1, h2⟩ | ⟨s, h1, h2, h3⟩
    · have hcode : isImageChars (c :: rest) = false := by
        simp [isImageChars, h1]
      rw [hcode]
      by_cases hc : c = '.'
      · have hsegs : dotSegs (c :: rest) = [[], rest] := by
          simp [dotSegs, h2, hc]
        rw [hsegs, if_neg]
        intro ⟨_, hne⟩
        exact hne ⟨rfl, rfl⟩
      · have hsegs : dotSegs (c :: rest) = [c :: rest] := by
          simp [dotSegs, h2, hc]
        rw [hsegs, if_neg]
        intro ⟨hle, _⟩
        simp at hle
    · have hcode : isImageChars (c :: rest) = imageExts.contains (lowerMk s) := by
        simp [isImageChars, h1]
      rw [hcode]
      obtain ⟨s0, ss0, hss⟩ : ∃ s0 ss0, dotSegs rest = s0 :: ss0 := by
        cases h : dotSegs rest with
        | nil => exact absurd h (dotSegs_ne_nil rest)
        | cons a b => exact ⟨a, b, rfl⟩
      rw [hss] at h2 h3
      rcases ss0 with _ | ⟨t, ts⟩
      · simp at h2
      · by_cases hc : c = '.'
        · have hsegs : dotSegs (c :: rest) = [] :: s0 :: t :: ts := by
            simp [dotSegs, hss, hc]
          rw [hsegs, if_pos]
          · have : ([] :: s0 :: t :: ts).getLast? = some s := by
              simpa [List.getLast?_cons_cons] using h3
            simp [lastSeg, this]
          · refine ⟨by simp, ?_⟩
            intro ⟨hlen, _⟩
            simp at hlen
        · have hsegs : dotSegs (c :: rest) = (c :: s0) :: t :: ts := by
            simp [dotSegs, hss, hc]
          rw [hsegs, if_pos]
          · have : ((c :: s0) :: t :: ts).getLast? = some s := by
              simpa [List.getLast?_cons_cons] using h3
            simp [lastSeg, this]
          · refine ⟨by simp, ?_⟩
            intro ⟨_, hhd⟩
            simp at hhd

/-- Claim C9 as stated is false at the concrete file name ".jpg" (a
hidden file): its last dot-separated segment is "jpg", which is in the
whitelist, yet is_image_file returns false, because Rust does not treat
a leading dot as an extension separator. -/
theorem C9_counterexample :
    is_image_file ".jpg" = false ∧ specIsImage ".jpg" = true ∧
      ¬(is_image_file ".jpg" = true ↔ specIsImage ".jpg" = true) := by
  refine ⟨by decide, by decide, by decide⟩

/-- Claim C9 amended: is_image_file returns true iff the extension of the name, lower-cased, is one of the ten whitelisted image extensions,
where the extension is the last dot-separated segment of the name
except that a dot in leading position does not count as a separator (a
hidden file such as ".jpg" has no extension and yields false).  A name
with no extension yields false, matching is case-insensitive, and only
the final segment is considered. -/
theorem C9_image_predicate (name : String) :
    is_image_file name = specIsImageAmended name := by
  by_cases hdd : name = ".."
  · subst hdd; decide
  · rw [is_image_file, if_neg hdd, specIsImageAmended]
    exact isImageChars_eq_amended name.toList

/-! ## Atomic archive writer (create_zip, main.rs lines 95-139)

The filesystem interaction is driven by oracles: each fallible step
(File::create of the temp file, File::open and io::copy per input file,
ZipWriter::finish, fs::rename) either succeeds or fails as the oracle
dictates.  The outcome records what the call left at the target path
(none = the call never wrote the target path) and whether the .tmp
artifact remains. -/

/-- One input file of create_zip: its path components, its byte content
(as a string), and oracles for whether File::open and io::copy succeed
on it. -/
structure SrcFile where
  path : List String
  content : String
  openOk : Bool
  copyOk : Bool
deriving Repr, DecidableEq

/-- Oracles for the three per-archive fallible steps of create_zip. -/
structure ZipOracle where
  createOk : Bool
  finishOk : Bool
  renameOk : Bool
deriving Repr, DecidableEq

/-- The io::Error kinds surfaced by the embedded functions. -/
inductive IoErr where
  | invalidName
  | createFail
  | openFail
  | copyFail
  | finishFail
  | renameFail
  | removeFail
deriving Repr, DecidableEq

instance {ε α : Type} [DecidableEq ε] [DecidableEq α] :
    DecidableEq (Except ε α) := fun a b =>
  match a, b with
  | .error e, .error f =>
    if h : e = f then isTrue (by rw [h])
    else isFalse fun hh => h (Except.error.inj hh)
  | .error _, .ok _ => isFalse Except.noConfusion
  | .ok _, .error _ => isFalse Except.noConfusion
  | .ok x, .ok y =>
    if h : x = y then isTrue (by rw [h])
    else isFalse fun hh => h (Except.ok.inj hh)

/-- What a create_zip call leaves on disk. -/
structure ZipFsOut where
  tempPath : String
  target : Option (List (String × String))
  tempRemains : Bool
deriving Repr, DecidableEq

/-- Base name of a source file (Rust Path::file_name). -/
def baseNameOf (f : SrcFile) : Option String :=
  f.path.getLast?

/-- main.rs lines 121-130: write each input file into the archive under
its base name, failing on a missing file name or on an open/copy
error. -/
def writeEntries : List SrcFile → List (String × String) →
    Except IoErr (List (String × String))
  | [], acc => .ok acc
  | f :: rest, acc =>
    match baseNameOf f with
    | none => .error .invalidName
    | some name =>
      if f.openOk then
        if f.copyOk then writeEntries rest (acc ++ [(name, f.content)])
        else .error .copyFail
      else .error .openFail

/-- main.rs lines 95-139: create the temp file at output_path ++ ".tmp",
stream every entry into it, finish the archive, then rename the temp
file onto output_path.  The target path is written by the final rename
only. -/
def create_zip (outputPath : String) (files : List SrcFile)
    (orc : ZipOracle) : Except IoErr Unit × ZipFsOut :=
  let temp := outputPath ++ ".tmp"
  if orc.createOk then
    match writeEntries files [] with
    | .error e => (.error e, ⟨temp, none, true⟩)
    | .ok entries =>
      if orc.finishOk then
        if orc.renameOk then (.ok (), ⟨temp, some entries, false⟩)
        else (.error .renameFail, ⟨temp, none, true⟩)
      else (.error .finishFail, ⟨temp, none, true⟩)
  else (.error .createFail, ⟨temp, none, false⟩)

/-- The entry list produced from a file list when every step succeeds. -/
def zipEntriesOf (files : List SrcFile) : List (String × String) :=
  files.map fun f => ((baseNameOf f).getD "", f.content)

lemma writeEntries_ok_characterization (files : List SrcFile)
    (acc entries : List (String × String))
    (h : writeEntries files acc = .ok entries) :
    entries = acc ++ zipEntriesOf files ∧
      ∀ f ∈ files, (baseNameOf f).isSome ∧ f.openOk = true ∧ f.copyOk = true := by
  induction files generalizing acc with
  | nil =>
    simp only [writeEntries] at h
    cases h
    simp [zipEntriesOf]
  | cons f rest ih =>
    cases hb : baseNameOf f with
    | none =>
      simp only [writeEntries, hb] at h
      exact Except.noConfusion h
    | some name =>
      simp only [writeEntries, hb] at h
      by_cases ho : f.openOk = true
      · by_cases hc : f.copyOk = true
        · rw [if_pos ho, if_pos hc] at h
          obtain ⟨h1, h2⟩ := ih _ h
          constructor
          · rw [h1]
            simp [zipEntriesOf, hb]
          · intro g hg
            rcases List.mem_cons.mp hg with hg | hg
            · subst hg
              exact ⟨by simp [hb], ho, hc⟩
            · exact h2 g hg
        · rw [if_pos ho, if_neg hc] at h
          exact Except.noConfusion h
      · rw [if_neg ho] at h
        exact Except.noConfusion h

/-- Claim C4: create_zip writes the complete archive at the temporary
path output_path ++ ".tmp" (a path distinct from the target) and only
the final rename publishes the target path.  If any step fails before
the rename completes, nothing is ever placed at the target path (at
most a .tmp artifact exists); on success the target path holds an
archive containing exactly the given files in order, each stored under
its base name only, and the temp file is gone. -/
theorem C4_create_zip_atomic (p : String) (files : List SrcFile)
    (orc : ZipOracle) :
    ((create_zip p files orc).2.tempPath = p ++ ".tmp" ∧
      (create_zip p files orc).2.tempPath ≠ p) ∧
    (∀ e, (create_zip p files orc).1 = .error e →
      (create_zip p files orc).2.target = none) ∧
    ((create_zip p files orc).1 = .ok () →
      (create_zip p files orc).2.target = some (zipEntriesOf files) ∧
      (create_zip p files orc).2.tempRemains = false ∧
      ∀ f ∈ files, (baseNameOf f).isSome) := by
  have htemp : p ++ ".tmp" ≠ p := by
    intro h
    have hlen := congrArg String.length h
    rw [String.length_append] at hlen
    have h4 : (".tmp" : String).length = 4 := by decide
    rw [h4] at hlen
    omega
  by_cases hcr : orc.createOk = true
  · cases hw : writeEntries files [] with
    | error e =>
      refine ⟨⟨?_, ?_⟩, ?_, ?_⟩ <;>
        simp [create_zip, hcr, hw, htemp]
    | ok entries =>
      obtain ⟨h1, h2⟩ := writeEntries_ok_characterization files [] entries hw
      by_cases hf : orc.finishOk = true
      · by_cases hr : orc.renameOk = true
        · refine ⟨⟨?_, ?_⟩, ?_, ?_⟩ <;>
            simp [create_zip, hcr, hw, hf, hr, htemp]
          constructor
          · rw [h1]; simp
          · intro f hf
            exact (h2 f hf).1
        · refine ⟨⟨?_, ?_⟩, ?_, ?_⟩ <;>
            simp [create_zip, hcr, hw, hf, hr, htemp]
      · refine ⟨⟨?_, ?_⟩, ?_, ?_⟩ <;>
          simp [create_zip, hcr, hw, hf, htemp]
  · refine ⟨⟨?_, ?_⟩, ?_, ?_⟩ <;>
      simp [create_zip, hcr, htemp]

/-- Witness for C4 at a concrete input: with all oracles succeeding,
the archive appears at the target containing the single file under its
base name; and with a failing rename, nothing is at the target. -/
theorem C4_create_zip_atomic_witness :
    (create_zip "d/a.zip" [⟨["d", "x", "b.jpg"], "bytes", true, true⟩]
        ⟨true, true, true⟩).2.target = some [("b.jpg", "bytes")] ∧
    (create_zip "d/a.zip" [⟨["d", "x", "b.jpg"], "bytes", true, true⟩]
        ⟨true, true, false⟩).2.target = none := by
  constructor
  · have h := C4_create_zip_atomic "d/a.zip"
      [⟨["d", "x", "b.jpg"], "bytes", true, true⟩] ⟨true, true, true⟩
    have h2 := h.2.2 (by rfl)
    rw [h2.1]
    rfl
  · have h := C4_create_zip_atomic "d/a.zip"
      [⟨["d", "x", "b.jpg"], "bytes", true, true⟩] ⟨true, true, false⟩
    exact h.2.1 IoErr.renameFail (by rfl)

/-! ## Archive-name collision resolution (main.rs lines 164-171)

The loop starts from parent/dirname.zip and, while the candidate path
exists, moves on to parent/dirname(counter).zip with the counter
incremented.  Existing paths are given as a finite list; the loop is
embedded with enough fuel (one more than the number of existing paths)
to cover every run that terminates on a real filesystem. -/

/-- The candidate sequence: index 0 is parent/dirname.zip, index k >= 1
is parent/dirname(k).zip. -/
def zipCandidate (parentStr dirName : String) : Nat → String
  | 0 => parentStr ++ "/" ++ dirName ++ ".zip"
  | k + 1 => parentStr ++ "/" ++ dirName ++ "(" ++ Nat.repr (k + 1) ++ ").zip"

/-- The while loop of main.rs lines 168-171. -/
def findZipAux (ex : List String) (parentStr dirName : String) :
    Nat → Nat → String → String
  | 0, _, current => current
  | fuel + 1, counter, current =>
    if current ∈ ex then
      findZipAux ex parentStr dirName fuel (counter + 1)
        (zipCandidate parentStr dirName counter)
    else current

/-- main.rs lines 165-171: initial candidate parent/dirname.zip, counter
starting at 1. -/
def find_zip_path (ex : List String) (parentStr dirName : String) : String :=
  findZipAux ex parentStr dirName (ex.length + 1) 1
    (zipCandidate parentStr dirName 0)

lemma findZipAux_spec (ex : List String) (ps dn : String) (k : Nat)
    (hfree : zipCandidate ps dn k ∉ ex)
    (hbusy : ∀ j, j < k → zipCandidate ps dn j ∈ ex) :
    ∀ fuel i, i ≤ k → k - i < fuel →
      findZipAux ex ps dn fuel (i + 1) (zipCandidate ps dn i) =
        zipCandidate ps dn k := by
  intro fuel
  induction fuel with
  | zero => intro i _ h; omega
  | succ fuel ih =>
    intro i hik hfuel
    rcases Nat.lt_or_ge i k with hlt | hge
    · have hmem : zipCandidate ps dn i ∈ ex := hbusy i hlt
      rw [findZipAux, if_pos hmem]
      exact ih (i + 1) hlt (by omega)
    · have hik2 : i = k := le_antisymm hik hge
      subst hik2
      rw [findZipAux, if_neg hfree]

/-- Claim C5: the chosen archive path is the first path of the sequence
parent/dirname.zip, parent/dirname(1).zip, parent/dirname(2).zip, ...
that does not already exist (k may always be taken at most the number
of existing paths, since the loop stops at the first free name). -/
theorem C5_zip_name_collision (ex : List String) (parentStr dirName : String)
    (k : Nat) (hk : k ≤ ex.length)
    (hfree : zipCandidate parentStr dirName k ∉ ex)
    (hbusy : ∀ j, j < k → zipCandidate parentStr dirName j ∈ ex) :
    find_zip_path ex parentStr dirName = zipCandidate parentStr dirName k := by
  exact findZipAux_spec ex parentStr dirName k hfree hbusy (ex.length + 1) 0
    (Nat.zero_le k) (by omega)

/-- Witness for C5 at the example given in the spec: with photos.zip and
photos(1).zip both present, the chosen path is photos(2).zip. -/
theorem C5_zip_name_collision_witness :
    find_zip_path ["albums/photos.zip", "albums/photos(1).zip"]
        "albums" "photos" = "albums/photos(2).zip" := by
  have h := C5_zip_name_collision
    ["albums/photos.zip", "albums/photos(1).zip"] "albums" "photos" 2
    (by decide) (by decide) (by decide)
  exact h.trans (by decide)

/-! ## Compress leaf policy (compress_images, main.rs lines 141-189) -/

/-- is_image_file applied to a full path: Rust takes the extension of
the file name of the path, its last component. -/
def isImagePath (f : SrcFile) : Bool :=
  match f.path.getLast? with
  | some n => is_image_file n
  | none => false

/-- Rust dir_path.file_name() with unwrap_or("unknown")
(main.rs lines 159-162). -/
def dirNameOf (dir : List String) : String :=
  (dir.getLast?).getD "unknown"

/-- Rust dir_path.parent() with unwrap_or(".") (main.rs line 164): the
empty path has no parent, a one-component path has the empty parent. -/
def parentStrOf (dir : List String) : String :=
  match dir with
  | [] => "."
  | _ => String.intercalate "/" dir.dropLast

/-- The guard at main.rs line 157: the file list is non-empty and image
files strictly outnumber the other files. -/
def compressCondition (files : List SrcFile) : Prop :=
  files.isEmpty = false ∧
    (files.filter fun f => !isImagePath f).length <
      (files.filter fun f => isImagePath f).length

instance (files : List SrcFile) : Decidable (compressCondition files) := by
  unfold compressCondition
  infer_instance

/-- Side effects of one compress_images invocation. -/
structure CompressEffects where
  zipPath : Option String
  zipOut : Option ZipFsOut
  dirDeleted : Bool
deriving Repr, DecidableEq

/-- main.rs lines 141-189: classify the files, and when the guard holds
pick a collision-free zip path next to the directory, write the archive
from the full file list, then delete the directory; otherwise do
nothing.  The function returns Ok(true) on every non-error path. -/
def compress_images (dir : List String) (files : List SrcFile)
    (ex : List String) (orc : ZipOracle) (removeDirOk : Bool) :
    Except IoErr Bool × CompressEffects :=
  if compressCondition files then
    let zipPath := find_zip_path ex (parentStrOf dir) (dirNameOf dir)
    match create_zip zipPath files orc with
    | (.error e, zout) => (.error e, ⟨some zipPath, some zout, false⟩)
    | (.ok _, zout) =>
      if removeDirOk then (.ok true, ⟨some zipPath, some zout, true⟩)
      else (.error .removeFail, ⟨some zipPath, some zout, false⟩)
  else (.ok true, ⟨none, none, false⟩)

/-- An archive actually reached its final path. -/
def createdArchive (eff : CompressEffects) : Prop :=
  ∃ z, eff.zipOut = some z ∧ z.target.isSome = true

lemma writeEntries_all_ok (files : List SrcFile)
    (h : ∀ f ∈ files, f.openOk = true ∧ f.copyOk = true ∧
      (baseNameOf f).isSome = true) :
    ∀ acc, writeEntries files acc = .ok (acc ++ zipEntriesOf files) := by
  induction files with
  | nil => intro acc; simp [writeEntries, zipEntriesOf]
  | cons f rest ih =>
    intro acc
    obtain ⟨ho, hc, hb⟩ := h f (List.mem_cons_self f rest)
    obtain ⟨name, hname⟩ := Option.isSome_iff_exists.mp hb
    rw [writeEntries, hname]
    simp only [if_pos ho, if_pos hc]
    rw [ih (fun g hg => h g (List.mem_cons_of_mem f hg))]
    simp [zipEntriesOf, hname]

lemma create_zip_all_ok (p : String) (files : List SrcFile)
    (h : ∀ f ∈ files, f.openOk = true ∧ f.copyOk = true ∧
      (baseNameOf f).isSome = true) :
    create_zip p files ⟨true, true, true⟩ =
      (.ok (), ⟨p ++ ".tmp", some (zipEntriesOf files), false⟩) := by
  simp [create_zip, writeEntries_all_ok files h []]

/-- Claim C2: assuming no I/O errors, compress_images creates an archive
iff the file list is non-empty and image files strictly outnumber the
rest; when the guard holds, the archive at the chosen path is written
from the full unfiltered file list (image and non-image files alike,
each under its base name), the source directory is deleted, and the
call returns Ok(true). -/
theorem C2_compress_policy (dir : List String) (files : List SrcFile)
    (ex : List String)
    (hfiles : ∀ f ∈ files, f.openOk = true ∧ f.copyOk = true ∧
      (baseNameOf f).isSome = true) :
    (createdArchive (compress_images dir files ex ⟨true, true, true⟩ true).2 ↔
      compressCondition files) ∧
    (compressCondition files →
      compress_images dir files ex ⟨true, true, true⟩ true =
        (.ok true,
          ⟨some (find_zip_path ex (parentStrOf dir) (dirNameOf dir)),
            some ⟨find_zip_path ex (parentStrOf dir) (dirNameOf dir) ++ ".tmp",
              some (zipEntriesOf files), false⟩,
            true⟩)) := by
  by_cases hcond : compressCondition files
  · have heq : compress_images dir files ex ⟨true, true, true⟩ true =
        (.ok true,
          ⟨some (find_zip_path ex (parentStrOf dir) (dirNameOf dir)),
            some ⟨find_zip_path ex (parentStrOf dir) (dirNameOf dir) ++ ".tmp",
              some (zipEntriesOf files), false⟩,
            true⟩) := by
      simp only [compress_images, if_pos hcond,
        create_zip_all_ok _ files hfiles]
      rw [if_pos trivial]
    refine ⟨?_, fun _ => heq⟩
    rw [heq]
    constructor
    · intro _; exact hcond
    · intro _
      exact ⟨_, rfl, rfl⟩
  · have heq : compress_images dir files ex ⟨true, true, true⟩ true =
        (.ok true, ⟨none, none, false⟩) := by
      rw [compress_images, if_neg hcond]
    refine ⟨?_, fun hc => absurd hc hcond⟩
    rw [heq]
    constructor
    · rintro ⟨z, hz, _⟩
      exact Option.noConfusion hz
    · intro hc; exact absurd hc hcond

/-- Witness for C2 at the example given in the spec: a leaf album with two images
and one text file gets archived as parent/album.zip containing all
three files by base name, and the directory is deleted. -/
theorem C2_compress_policy_witness :
    compress_images ["parent", "album"]
        [⟨["parent", "album", "a.jpg"], "A", true, true⟩,
         ⟨["parent", "album", "b.png"], "B", true, true⟩,
         ⟨["parent", "album", "c.txt"], "C", true, true⟩]
        [] ⟨true, true, true⟩ true =
      (.ok true,
        ⟨some "parent/album.zip",
          some ⟨"parent/album.zip.tmp",
            some [("a.jpg", "A"), ("b.png", "B"), ("c.txt", "C")], false⟩,
          true⟩) := by
  have h := (C2_compress_policy ["parent", "album"]
    [⟨["parent", "album", "a.jpg"], "A", true, true⟩,
     ⟨["parent", "album", "b.png"], "B", true, true⟩,
     ⟨["parent", "album", "c.txt"], "C", true, true⟩]
    [] (by decide)).2 (by decide)
  exact h.trans (by decide)

/-- Claim C3 as stated is false at a concrete input: with an empty file
list (guard not met) compress_images returns Ok(true), not the claimed
Ok(false), though indeed with no side effect and no error. -/
theorem C3_counterexample :
    compress_images ["p", "d"] [] [] ⟨true, true, true⟩ true =
        (.ok true, ⟨none, none, false⟩) ∧
      (Except.ok true : Except IoErr Bool) ≠ .ok false := by
  exact ⟨rfl, by decide⟩

/-- Claim C3 amended: when the guard fails (empty list, or image count
not strictly greater than the rest), compress_images performs no side
effect and returns Ok(true) — not an error; the returned boolean is
always true and its caller ignores it. -/
theorem C3_no_action_without_majority (dir : List String)
    (files : List SrcFile) (ex : List String) (orc : ZipOracle)
    (removeDirOk : Bool) (h : ¬compressCondition files) :
    compress_images dir files ex orc removeDirOk =
      (.ok true, ⟨none, none, false⟩) := by
  rw [compress_images, if_neg h]

/-- Witness for C3 at the example given in the spec: one image against two text
files — no action, Ok(true). -/
theorem C3_no_action_without_majority_witness :
    compress_images ["p", "d"]
        [⟨["p", "d", "a.jpg"], "A", true, true⟩,
         ⟨["p", "d", "b.txt"], "B", true, true⟩,
         ⟨["p", "d", "c.txt"], "C", true, true⟩]
        [] ⟨true, true, true⟩ true = (.ok true, ⟨none, none, false⟩) := by
  exact C3_no_action_without_majority _ _ _ _ _ (by decide)

/-! ## Clean leaf policy (clean_dir, main.rs lines 191-246)

Each file carries its name, its size, and oracles for whether the
metadata read and the remove_file call succeed; the directory removal
has its own oracle.  The effects of one call are the files remaining on
disk and whether the directory itself was removed. -/

/-- One file as seen by clean_dir. -/
structure CFile where
  name : String
  size : Nat
  metaOk : Bool
  removeOk : Bool
deriving Repr, DecidableEq

/-- Rust name.starts_with('.') — the first character is a dot. -/
def firstCharDot (s : String) : Bool :=
  match s.toList with
  | c :: _ => c = '.'
  | [] => false

/-- The deletion test at main.rs line 211: zero size or hidden name. -/
def shouldClean (f : CFile) : Bool :=
  f.size == 0 || firstCharDot f.name

/-- The for loop of main.rs lines 201-228: returns the deleted count and
the files still on disk.  A file whose metadata read fails is skipped;
a failed remove_file is not counted and the file stays. -/
def cleanLoop : List CFile → Nat × List CFile
  | [] => (0, [])
  | f :: rest =>
    let r := cleanLoop rest
    if f.metaOk then
      if shouldClean f then
        if f.removeOk then (r.1 + 1, r.2)
        else (r.1, f :: r.2)
      else (r.1, f :: r.2)
    else (r.1, f :: r.2)

/-- main.rs lines 191-246: run the loop, then remove the directory when
every file was deleted or there were none to begin with; a failed
directory removal is returned as an error. -/
def clean_dir (files : List CFile) (removeDirOk : Bool) :
    Except IoErr Bool × (List CFile × Bool) :=
  let r := cleanLoop files
  if r.1 = files.length ∨ files.isEmpty = true then
    if removeDirOk then (.ok true, (r.2, true))
    else (.error .removeFail, (r.2, false))
  else (.ok true, (r.2, false))

/-- A file is actually deleted iff its metadata is readable, it is
zero-sized or hidden, and the remove_file call succeeds. -/
def cleanDeletePred (f : CFile) : Bool :=
  f.metaOk && shouldClean f && f.removeOk

lemma cleanLoop_characterization (files : List CFile) :
    (cleanLoop files).2 = files.filter (fun f => !cleanDeletePred f) ∧
      (cleanLoop files).1 =
        (files.filter (fun f => cleanDeletePred f)).length := by
  induction files with
  | nil => simp [cleanLoop]
  | cons f rest ih =>
    by_cases hm : f.metaOk = true
    · by_cases hs : shouldClean f = true
      · by_cases hr : f.removeOk = true
        · have hp : cleanDeletePred f = true := by
            simp [cleanDeletePred, hm, hs, hr]
          constructor
          · simp [cleanLoop, hm, hs, hr, List.filter, hp, ih.1]
          · simp [cleanLoop, hm, hs, hr, List.filter, hp, ih.2]
        · have hp : cleanDeletePred f = false := by
            simp [cleanDeletePred, hr]
          constructor
          · simp [cleanLoop, hm, hs, hr, List.filter, hp, ih.1]
          · simp [cleanLoop, hm, hs, hr, List.filter, hp, ih.2]
      · have hp : cleanDeletePred f = false := by
          simp [cleanDeletePred, hs]
        constructor
        · simp [cleanLoop, hm, hs, List.filter, hp, ih.1]
        · simp [cleanLoop, hm, hs, List.filter, hp, ih.2]
    · have hp : cleanDeletePred f = false := by
        simp [cleanDeletePred, hm]
      constructor
      · simp [cleanLoop, hm, List.filter, hp, ih.1]
      · simp [cleanLoop, hm, List.filter, hp, ih.2]

/-- Claim C7: under the clean policy a file is deleted iff its metadata
is readable, its size is zero or its name starts with a dot, and the
deletion succeeds (metadata-unreadable files are skipped and not
counted, failed deletions are not counted); and, when the directory
removal itself succeeds, the directory is removed iff the count of
successful deletions equals the original number of files or the leaf
had no files at all. -/
theorem C7_clean_policy (files : List CFile) (removeDirOk : Bool)
    (hrd : removeDirOk = true) :
    (cleanLoop files).2 = files.filter (fun f => !cleanDeletePred f) ∧
    (cleanLoop files).1 =
      (files.filter (fun f => cleanDeletePred f)).length ∧
    ((clean_dir files removeDirOk).2.2 = true ↔
      (cleanLoop files).1 = files.length ∨ files = []) := by
  obtain ⟨h1, h2⟩ := cleanLoop_characterization files
  subst hrd
  refine ⟨h1, h2, ?_⟩
  by_cases hc : (cleanLoop files).1 = files.length ∨ files.isEmpty = true
  · have : (clean_dir files true).2.2 = true := by
      simp only [clean_dir, if_pos hc]
      simp
    rw [this]
    simp only [true_iff]
    rcases hc with hc | hc
    · exact Or.inl hc
    · exact Or.inr (List.isEmpty_iff.mp hc)
  · have : (clean_dir files true).2.2 = false := by
      simp only [clean_dir, if_neg hc]
    rw [this]
    constructor
    · intro h; exact Bool.noConfusion h
    · intro h
      exfalso
      apply hc
      rcases h with h | h
      · exact Or.inl h
      · exact Or.inr (by simp [h])

/-- Witness for C7 at the example given in the spec: empty.txt (0 bytes) and
.hidden (5 bytes) are deleted, data.txt (5 bytes) survives, and the
directory is not removed since 2 of 3 files were deleted. -/
theorem C7_clean_policy_witness :
    (cleanLoop [⟨"empty.txt", 0, true, true⟩, ⟨".hidden", 5, true, true⟩,
        ⟨"data.txt", 5, true, true⟩]).2 = [⟨"data.txt", 5, true, true⟩] ∧
    (clean_dir [⟨"empty.txt", 0, true, true⟩, ⟨".hidden", 5, true, true⟩,
        ⟨"data.txt", 5, true, true⟩] true).2.2 = false := by
  have h := C7_clean_policy [⟨"empty.txt", 0, true, true⟩,
    ⟨".hidden", 5, true, true⟩, ⟨"data.txt", 5, true, true⟩] true rfl
  constructor
  · rw [h.1]
    decide
  · cases hdr : (clean_dir [⟨"empty.txt", 0, true, true⟩,
      ⟨".hidden", 5, true, true⟩, ⟨"data.txt", 5, true, true⟩] true).2.2 with
    | false => rfl
    | true =>
      exfalso
      rcases h.2.2.mp hdr with hx | hx
      · rw [h.2.1] at hx
        exact absurd hx (by decide)
      · exact absurd hx (by decide)

/-! ## Directory tree and traversal
(process_directory_recursively, main.rs lines 33-81)

A directory node carries a readOk oracle (does read_dir succeed on it),
its regular files, and its subdirectories; each subdirectory entry
carries its name and a utf8 flag (is the path of the entry valid UTF-8 — the
code unwraps the conversion and panics otherwise).  The leaf policy is
abstracted as a boolean function of the leaf path and files (true =
Ok(_), false = Err(_)); paths are component lists. -/

/-- A regular file inside a tree node. -/
structure FileEnt where
  name : String
  size : Nat
deriving Repr, DecidableEq

mutual
inductive FsTree : Type where
  | node (readOk : Bool) (files : List FileEnt) (subs : Forest) : FsTree
inductive Forest : Type where
  | nil : Forest
  | cons (name : String) (utf8 : Bool) (t : FsTree) (rest : Forest) : Forest
end

/-- Outcome of one traversal frame: a panic (unwrap of a non-UTF-8
path), an Err propagated to the caller, or Ok with the visited file
paths. -/
inductive Outcome where
  | panic : Outcome
  | fail : Outcome
  | ok (files : List (List String)) : Outcome
deriving Repr, DecidableEq

/-- A traversal frame result: outcome plus the log of leaf-policy
invocations (leaf path and files) made below this frame. -/
structure TravOut where
  out : Outcome
  calls : List (List String × List FileEnt)
deriving Repr, DecidableEq

mutual
/-- main.rs lines 33-81: read the directory (Err on failure); at a leaf
(no subdirectories) invoke the policy once and return the file paths on
Ok, Err on policy failure; at a non-leaf recurse into each
subdirectory, dropping failed branches and flattening the rest. -/
def process_directory_recursively
    (pol : List String → List FileEnt → Bool) (p : List String) :
    FsTree → TravOut
  | .node readOk files subs =>
    if readOk then
      match subs with
      | .nil =>
        if pol p files then
          ⟨.ok (files.map fun f => p ++ [f.name]), [(p, files)]⟩
        else ⟨.fail, [(p, files)]⟩
      | .cons a b c d =>
        match process_subdirs pol p (.cons a b c d) with
        | (none, cs) => ⟨.panic, cs⟩
        | (some l, cs) => ⟨.ok l, cs⟩
    else ⟨.fail, []⟩
/-- The par_iter over subdirectories (main.rs lines 64-78), sequential
in the model: a non-UTF-8 entry name panics (none); a failed recursive
call contributes nothing; results are flattened in order. -/
def process_subdirs (pol : List String → List FileEnt → Bool)
    (p : List String) :
    Forest → Option (List (List String)) × List (List String × List FileEnt)
  | .nil => (some [], [])
  | .cons name u8 t rest =>
    if u8 then
      match process_directory_recursively pol (p ++ [name]) t with
      | ⟨.panic, cs⟩ => (none, cs)
      | ⟨.fail, cs⟩ =>
        match process_subdirs pol p rest with
        | (none, cs2) => (none, cs ++ cs2)
        | (some l2, cs2) => (some l2, cs ++ cs2)
      | ⟨.ok l, cs⟩ =>
        match process_subdirs pol p rest with
        | (none, cs2) => (none, cs ++ cs2)
        | (some l2, cs2) => (some (l ++ l2), cs ++ cs2)
    else (none, [])
end

mutual
/-- Spec-side: the full paths of the files sitting in leaf directories. -/
def leafPaths (p : List String) : FsTree → List (List String)
  | .node _ files .nil => files.map fun f => p ++ [f.name]
  | .node _ _ (.cons a b c d) => leafPathsF p (.cons a b c d)
def leafPathsF (p : List String) : Forest → List (List String)
  | .nil => []
  | .cons name _ t rest => leafPaths (p ++ [name]) t ++ leafPathsF p rest
end

mutual
/-- Spec-side: one policy invocation per leaf directory, in traversal
order. -/
def leafCalls (p : List String) :
    FsTree → List (List String × List FileEnt)
  | .node _ files .nil => [(p, files)]
  | .node _ _ (.cons a b c d) => leafCallsF p (.cons a b c d)
def leafCallsF (p : List String) :
    Forest → List (List String × List FileEnt)
  | .nil => []
  | .cons name _ t rest => leafCalls (p ++ [name]) t ++ leafCallsF p rest
end

mutual
/-- Count of all regular files anywhere under a node, including the files of the node itself. -/
def allFileCount : FsTree → Nat
  | .node _ files subs => files.length + allFileCountF subs
def allFileCountF : Forest → Nat
  | .nil => 0
  | .cons _ _ t rest => allFileCount t + allFileCountF rest
end

mutual
/-- No I/O errors and no panics anywhere: every read_dir succeeds, every
entry name is valid UTF-8, and the policy succeeds on every leaf. -/
def allOk (pol : List String → List FileEnt → Bool) (p : List String) :
    FsTree → Bool
  | .node readOk files .nil => readOk && pol p files
  | .node readOk _ (.cons a b c d) =>
    readOk && allOkF pol p (.cons a b c d)
def allOkF (pol : List String → List FileEnt → Bool) (p : List String) :
    Forest → Bool
  | .nil => true
  | .cons name u8 t rest =>
    u8 && allOk pol (p ++ [name]) t && allOkF pol p rest
end

mutual
/-- Every entry name in the whole tree is valid UTF-8. -/
def allUtf8 : FsTree → Bool
  | .node _ _ subs => allUtf8F subs
def allUtf8F : Forest → Bool
  | .nil => true
  | .cons _ u8 t rest => u8 && allUtf8 t && allUtf8F rest
end

mutual
/-- Well-formed tree: within each directory the file names are distinct
and the subdirectory names are distinct (as on a real filesystem). -/
def wfTree : FsTree → Bool
  | .node _ files subs =>
    decide ((files.map FileEnt.name).Nodup) && wfForest subs
def wfForest : Forest → Bool
  | .nil => true
  | .cons name _ t rest =>
    decide (name ∉ forestNames rest) && wfTree t && wfForest rest
def forestNames : Forest → List String
  | .nil => []
  | .cons name _ _ rest => name :: forestNames rest
end

/-- The generated mutual recursor, packaged as a joint induction
principle for FsTree and Forest. -/
theorem tree_forest_induction (P : FsTree → Prop) (Q : Forest → Prop)
    (h1 : ∀ readOk files subs, Q subs → P (.node readOk files subs))
    (h2 : Q .nil)
    (h3 : ∀ name u8 t rest, P t → Q rest → Q (.cons name u8 t rest)) :
    (∀ t, P t) ∧ (∀ sf, Q sf) :=
  ⟨fun t => @FsTree.rec P Q h1 h2 h3 t,
   fun sf => @Forest.rec P Q h1 h2 h3 sf⟩

lemma process_allOk (pol : List String → List FileEnt → Bool) :
    (∀ t, ∀ p, allOk pol p t = true →
      process_directory_recursively pol p t =
        ⟨.ok (leafPaths p t), leafCalls p t⟩) ∧
    (∀ sf, ∀ p, allOkF pol p sf = true →
      process_subdirs pol p sf =
        (some (leafPathsF p sf), leafCallsF p sf)) := by
  refine tree_forest_induction
    (fun t => ∀ p, allOk pol p t = true →
      process_directory_recursively pol p t =
        ⟨.ok (leafPaths p t), leafCalls p t⟩)
    (fun sf => ∀ p, allOkF pol p sf = true →
      process_subdirs pol p sf =
        (some (leafPathsF p sf), leafCallsF p sf))
    ?_ ?_ ?_
  · intro readOk files subs ih p hok
    cases subs with
    | nil =>
      simp only [allOk, Bool.and_eq_true] at hok
      simp [process_directory_recursively, hok.1, hok.2, leafPaths, leafCalls]
    | cons a b c d =>
      simp only [allOk, Bool.and_eq_true] at hok
      have hf := ih p hok.2
      simp [process_directory_recursively, hok.1, hf, leafPaths, leafCalls]
  · intro p _
    simp [process_subdirs, leafPathsF, leafCallsF]
  · intro name u8 t rest iht ihr p hok
    simp only [allOkF, Bool.and_eq_true] at hok
    obtain ⟨⟨hu8, ht⟩, hr⟩ := hok
    have h1 := iht (p ++ [name]) ht
    have h2 := ihr p hr
    simp [process_subdirs, hu8, h1, h2, leafPathsF, leafCallsF]

lemma take_extend_facts (q p : List String) (name : String)
    (h : q.take (p.length + 1) = p ++ [name]) :
    q.take p.length = p ∧ q.get? p.length = some name ∧
      p.length < q.length := by
  have hlen : p.length < q.length := by
    have := congrArg List.length h
    rw [List.length_take] at this
    simp at this
    omega
  have h2 : (q.take (p.length + 1)).take p.length = p := by
    rw [h, List.take_left]
  rw [List.take_take] at h2
  have hmin : min p.length (p.length + 1) = p.length := by omega
  rw [hmin] at h2
  have h3 : (q.take (p.length + 1)).get? p.length = q.get? p.length :=
    List.get?_take (Nat.lt_succ_self _)
  rw [h, List.get?_concat_length] at h3
  exact ⟨h2, h3.symm, hlen⟩

lemma leafPaths_shape :
    (∀ t, ∀ p path, path ∈ leafPaths p t →
      path.take p.length = p ∧ p.length < path.length) ∧
    (∀ sf, ∀ p path, path ∈ leafPathsF p sf →
      path.take p.length = p ∧ p.length < path.length ∧
      ∃ n, n ∈ forestNames sf ∧ path.get? p.length = some n) := by
  refine tree_forest_induction
    (fun t => ∀ p path, path ∈ leafPaths p t →
      path.take p.length = p ∧ p.length < path.length)
    (fun sf => ∀ p path, path ∈ leafPathsF p sf →
      path.take p.length = p ∧ p.length < path.length ∧
      ∃ n, n ∈ forestNames sf ∧ path.get? p.length = some n)
    ?_ ?_ ?_
  · intro readOk files subs ih p path hmem
    cases subs with
    | nil =>
      simp only [leafPaths, List.mem_map] at hmem
      obtain ⟨f, _, rfl⟩ := hmem
      constructor
      · rw [List.take_left]
      · simp
    | cons a b c d =>
      have := ih p path hmem
      exact ⟨this.1, this.2.1⟩
  · intro p path hmem
    simp [leafPathsF] at hmem
  · intro name u8 t rest iht ihr p path hmem
    rw [leafPathsF, List.mem_append] at hmem
    rcases hmem with hmem | hmem
    · have h1 := iht (p ++ [name]) path hmem
      have h2 : path.take (p.length + 1) = p ++ [name] := by
        have := h1.1
        simpa using this
      obtain ⟨ht, hg, hl⟩ := take_extend_facts path p name h2
      exact ⟨ht, by omega, name, by simp [forestNames], hg⟩
    · obtain ⟨ht, hl, n, hn, hg⟩ := ihr p path hmem
      exact ⟨ht, hl, n, by simp [forestNames, hn], hg⟩

lemma leafCalls_shape :
    (∀ t, ∀ p q, q ∈ (leafCalls p t).map Prod.fst →
      q.take p.length = p) ∧
    (∀ sf, ∀ p q, q ∈ (leafCallsF p sf).map Prod.fst →
      q.take p.length = p ∧ p.length < q.length ∧
      ∃ n, n ∈ forestNames sf ∧ q.get? p.length = some n) := by
  refine tree_forest_induction
    (fun t => ∀ p q, q ∈ (leafCalls p t).map Prod.fst →
      q.take p.length = p)
    (fun sf => ∀ p q, q ∈ (leafCallsF p sf).map Prod.fst →
      q.take p.length = p ∧ p.length < q.length ∧
      ∃ n, n ∈ forestNames sf ∧ q.get? p.length = some n)
    ?_ ?_ ?_
  · intro readOk files subs ih p q hmem
    cases subs with
    | nil =>
      simp only [leafCalls, List.map, List.mem_singleton] at hmem
      subst hmem
      exact List.take_length _
    | cons a b c d =>
      exact (ih p q hmem).1
  · intro p q hmem
    simp [leafCallsF] at hmem
  · intro name u8 t rest iht ihr p q hmem
    rw [leafCallsF, List.map_append, List.mem_append] at hmem
    rcases hmem with hmem | hmem
    · have h1 := iht (p ++ [name]) q hmem
      have h2 : q.take (p.length + 1) = p ++ [name] := by simpa using h1
      obtain ⟨ht, hg, hl⟩ := take_extend_facts q p name h2
      exact ⟨ht, by omega, name, by simp [forestNames], hg⟩
    · obtain ⟨ht, hl, n, hn, hg⟩ := ihr p q hmem
      exact ⟨ht, hl, n, by simp [forestNames, hn], hg⟩

lemma leafPaths_nodup :
    (∀ t, ∀ p, wfTree t = true →
      (leafPaths p t).Nodup ∧ ((leafCalls p t).map Prod.fst).Nodup) ∧
    (∀ sf, ∀ p, wfForest sf = true →
      (leafPathsF p sf).Nodup ∧ ((leafCallsF p sf).map Prod.fst).Nodup) := by
  refine tree_forest_induction
    (fun t => ∀ p, wfTree t = true →
      (leafPaths p t).Nodup ∧ ((leafCalls p t).map Prod.fst).Nodup)
    (fun sf => ∀ p, wfForest sf = true →
      (leafPathsF p sf).Nodup ∧ ((leafCallsF p sf).map Prod.fst).Nodup)
    ?_ ?_ ?_
  · intro readOk files subs ih p hwf
    simp only [wfTree, Bool.and_eq_true, decide_eq_true_eq] at hwf
    cases subs with
    | nil =>
      constructor
      · have hmap : leafPaths p (.node readOk files .nil) =
            (files.map FileEnt.name).map (fun n => p ++ [n]) := by
          simp [leafPaths, List.map_map]
        rw [hmap]
        refine List.Nodup.map ?_ hwf.1
        intro a b hab
        have := List.append_cancel_left hab
        simpa using this
      · simp [leafCalls]
    | cons a b c d =>
      exact ih p hwf.2
  · intro p _
    simp [leafPathsF, leafCallsF]
  · intro name u8 t rest iht ihr p hwf
    simp only [wfForest, Bool.and_eq_true, decide_eq_true_eq] at hwf
    obtain ⟨⟨hname, hwt⟩, hwr⟩ := hwf
    obtain ⟨hp1, hc1⟩ := iht (p ++ [name]) hwt
    obtain ⟨hp2, hc2⟩ := ihr p hwr
    constructor
    · rw [leafPathsF]
      refine List.Nodup.append hp1 hp2 ?_
      intro a ha1 ha2
      have hsh1 := (leafPaths_shape.1 t (p ++ [name]) a ha1).1
      have htk : a.take (p.length + 1) = p ++ [name] := by simpa using hsh1
      have hg1 := (take_extend_facts a p name htk).2.1
      obtain ⟨_, _, n, hn, hg2⟩ := leafPaths_shape.2 rest p a ha2
      rw [hg1] at hg2
      cases hg2
      exact hname hn
    · rw [leafCallsF, List.map_append]
      refine List.Nodup.append hc1 hc2 ?_
      intro a ha1 ha2
      have hsh1 := leafCalls_shape.1 t (p ++ [name]) a ha1
      have htk : a.take (p.length + 1) = p ++ [name] := by simpa using hsh1
      have hg1 := (take_extend_facts a p name htk).2.1
      obtain ⟨_, _, n, hn, hg2⟩ := leafCalls_shape.2 rest p a ha2
      rw [hg1] at hg2
      cases hg2
      exact hname hn

mutual
/-- Count of the regular files that sit in leaf directories. -/
def leafFileCount : FsTree → Nat
  | .node _ files .nil => files.length
  | .node _ _ (.cons a b c d) => leafFileCountF (.cons a b c d)
def leafFileCountF : Forest → Nat
  | .nil => 0
  | .cons _ _ t rest => leafFileCount t + leafFileCountF rest
end

lemma leafPaths_length :
    (∀ t, ∀ p : List String, (leafPaths p t).length = leafFileCount t) ∧
    (∀ sf, ∀ p : List String,
      (leafPathsF p sf).length = leafFileCountF sf) := by
  refine tree_forest_induction
    (fun t => ∀ p : List String,
      (leafPaths p t).length = leafFileCount t)
    (fun sf => ∀ p : List String,
      (leafPathsF p sf).length = leafFileCountF sf)
    ?_ ?_ ?_
  · intro readOk files subs ih p
    cases subs with
    | nil => simp [leafPaths, leafFileCount]
    | cons a b c d => simpa [leafPaths, leafFileCount] using ih p
  · intro p
    simp [leafPathsF, leafFileCountF]
  · intro name u8 t rest iht ihr p
    simp [leafPathsF, leafFileCountF, iht, ihr]

/-- The always-succeeding leaf policy, for concrete runs. -/
def polTrue : List String → List FileEnt → Bool := fun _ _ => true

/-- Claim C1 as stated is false at a concrete tree: a root holding the
regular file a.txt together with a subdirectory S whose only entry is
b.txt.  The traversal (with no I/O errors and an always-Ok policy)
returns only S/b.txt: root/a.txt is dropped, so the returned list has
length 1 while the tree holds 2 regular files, refuting both the
"every regular file appears" part and the depth-1 count equation. -/
theorem C1_counterexample :
    process_directory_recursively polTrue ["root"]
        (.node true [⟨"a.txt", 1⟩]
          (.cons "S" true (.node true [⟨"b.txt", 1⟩] .nil) .nil)) =
      ⟨.ok [["root", "S", "b.txt"]],
        [(["root", "S"], [⟨"b.txt", 1⟩])]⟩ ∧
    allFileCount (.node true [⟨"a.txt", 1⟩]
        (.cons "S" true (.node true [⟨"b.txt", 1⟩] .nil) .nil)) = 2 ∧
    [["root", "S", "b.txt"]] ≠
      ([] : List (List String)) ++ [["root", "a.txt"], ["root", "S", "b.txt"]] := by
  exact ⟨rfl, rfl, by decide⟩

/-- Claim C1 amended: assuming no I/O errors, the traversal returns
exactly the files of the leaf directories — the leaf policy is invoked
once per leaf directory with the files of that leaf, every regular file that
sits in a leaf directory appears in the returned list, the length of the list is the number of regular files in leaf directories, and (on a
well-formed tree) no path and no leaf invocation is duplicated.  Files
in directories that also contain subdirectories are not visited. -/
theorem C1_leaf_aggregation (pol : List String → List FileEnt → Bool)
    (p : List String) (t : FsTree) (hok : allOk pol p t = true) :
    process_directory_recursively pol p t =
      ⟨.ok (leafPaths p t), leafCalls p t⟩ ∧
    (leafPaths p t).length = leafFileCount t ∧
    (wfTree t = true →
      (leafPaths p t).Nodup ∧ ((leafCalls p t).map Prod.fst).Nodup) :=
  ⟨(process_allOk pol).1 t p hok, leafPaths_length.1 t p,
   fun hwf => leafPaths_nodup.1 t p hwf⟩

/-- Witness for C1 at a concrete two-level tree with distinct names. -/
theorem C1_leaf_aggregation_witness :
    process_directory_recursively polTrue ["r"]
        (.node true [⟨"x.txt", 1⟩]
          (.cons "S" true (.node true [⟨"y.jpg", 3⟩] .nil) .nil)) =
      ⟨.ok [["r", "S", "y.jpg"]], [(["r", "S"], [⟨"y.jpg", 3⟩])]⟩ := by
  have h := C1_leaf_aggregation polTrue ["r"]
    (.node true [⟨"x.txt", 1⟩]
      (.cons "S" true (.node true [⟨"y.jpg", 3⟩] .nil) .nil)) (by decide)
  exact h.1.trans (by rfl)

lemma process_no_panic (pol : List String → List FileEnt → Bool) :
    (∀ t, ∀ p, allUtf8 t = true →
      (process_directory_recursively pol p t).out ≠ .panic) ∧
    (∀ sf, ∀ p, allUtf8F sf = true →
      (process_subdirs pol p sf).1 ≠ none) := by
  refine tree_forest_induction
    (fun t => ∀ p, allUtf8 t = true →
      (process_directory_recursively pol p t).out ≠ .panic)
    (fun sf => ∀ p, allUtf8F sf = true →
      (process_subdirs pol p sf).1 ≠ none)
    ?_ ?_ ?_
  · intro readOk files subs ih p hu
    rw [allUtf8] at hu
    cases subs with
    | nil =>
      by_cases hro : readOk = true
      · by_cases hpol : pol p files = true <;>
          simp [process_directory_recursively, hro, hpol]
      · simp [process_directory_recursively, hro]
    | cons a b c d =>
      by_cases hro : readOk = true
      · have hf := ih p hu
        rcases hps : process_subdirs pol p (.cons a b c d) with ⟨o, cs⟩
        rw [hps] at hf
        cases o with
        | none => simp at hf
        | some l => simp [process_directory_recursively, hro, hps]
      · simp [process_directory_recursively, hro]
  · intro p _
    simp [process_subdirs]
  · intro name u8 t rest iht ihr p hu
    simp only [allUtf8F, Bool.and_eq_true] at hu
    obtain ⟨⟨hu8, ht⟩, hr⟩ := hu
    have h1 := iht (p ++ [name]) ht
    have h2 := ihr p hr
    rcases hpt : process_directory_recursively pol (p ++ [name]) t with ⟨o1, cs1⟩
    rw [hpt] at h1
    rcases hpr : process_subdirs pol p rest with ⟨o2, cs2⟩
    rw [hpr] at h2
    cases o1 with
    | panic => simp at h1
    | fail =>
      cases o2 with
      | none => simp at h2
      | some l2 => simp [process_subdirs, hu8, hpt, hpr]
    | ok l =>
      cases o2 with
      | none => simp at h2
      | some l2 => simp [process_subdirs, hu8, hpt, hpr]

/-- main.rs lines 248-284 as an exit-code function: exit 1 when the root
does not exist or is not a directory, otherwise run the traversal on
the root and exit 0 on Ok, 1 on Err (a Rust panic aborts with code
101). -/
def mainExitCode (pol : List String → List FileEnt → Bool)
    (dirname : String) (rootExists rootIsDir : Bool) (t : FsTree) : Nat :=
  if rootExists && rootIsDir then
    match (process_directory_recursively pol [dirname] t).out with
    | .ok _ => 0
    | .fail => 1
    | .panic => 101
  else 1

/-- Claim C6 as stated is false at a concrete input: when the root
itself is a leaf and the leaf policy fails there, the program exits 1
even though the root exists, is a directory, and its read_dir succeeds
(the readOk field of the tree is true) — so a root-level read failure is not
the only non-zero exit after the preconditions. -/
theorem C6_counterexample :
    mainExitCode (fun _ _ => false) "root" true true
        (.node true [⟨"f.txt", 1⟩] .nil) = 1 ∧ (1 : Nat) ≠ 0 := by
  exact ⟨rfl, by decide⟩

/-- Claim C6 amended: a failed recursive call contributes no files while
the sibling contributions are kept; a non-leaf frame whose own
read_dir succeeds always returns Ok (given no panic); and, absent
panics, the program exits non-zero exactly when the precondition fails,
the root read fails, or the root is itself a leaf on which the policy
fails. -/
theorem C6_subtree_isolation :
    (∀ pol (p : List String) name t rest,
      (process_directory_recursively pol (p ++ [name]) t).out = .fail →
      (process_subdirs pol p (.cons name true t rest)).1 =
        (process_subdirs pol p rest).1) ∧
    (∀ pol (p : List String) name t rest l l2,
      (process_directory_recursively pol (p ++ [name]) t).out = .ok l →
      (process_subdirs pol p rest).1 = some l2 →
      (process_subdirs pol p (.cons name true t rest)).1 = some (l ++ l2)) ∧
    (∀ pol (p : List String) files subs, subs ≠ Forest.nil →
      allUtf8F subs = true →
      ∃ l, (process_directory_recursively pol p
        (.node true files subs)).out = .ok l) ∧
    (∀ pol d readOk files subs,
      allUtf8 (FsTree.node readOk files subs) = true →
      (mainExitCode pol d true true (.node readOk files subs) = 0 ↔
        (readOk = true ∧
          (subs = Forest.nil → pol [d] files = true)))) := by
  refine ⟨?_, ?_, ?_, ?_⟩
  · intro pol p name t rest hfail
    rcases hpt : process_directory_recursively pol (p ++ [name]) t with ⟨o1, cs1⟩
    rw [hpt] at hfail
    simp at hfail
    subst hfail
    rcases hpr : process_subdirs pol p rest with ⟨o2, cs2⟩
    cases o2 <;> simp [process_subdirs, hpt, hpr]
  · intro pol p name t rest l l2 hok hrest
    rcases hpt : process_directory_recursively pol (p ++ [name]) t with ⟨o1, cs1⟩
    rw [hpt] at hok
    simp at hok
    subst hok
    rcases hpr : process_subdirs pol p rest with ⟨o2, cs2⟩
    rw [hpr] at hrest
    simp at hrest
    subst hrest
    simp [process_subdirs, hpt, hpr]
  · intro pol p files subs hne hu
    cases subs with
    | nil => exact absurd rfl hne
    | cons a b c d =>
      have hnn := (process_no_panic pol).2 (.cons a b c d) p hu
      rcases hps : process_subdirs pol p (.cons a b c d) with ⟨o, cs⟩
      rw [hps] at hnn
      cases o with
      | none => simp at hnn
      | some l =>
        exact ⟨l, by simp [process_directory_recursively, hps]⟩
  · intro pol d readOk files subs hu
    rw [allUtf8] at hu
    cases subs with
    | nil =>
      by_cases hro : readOk = true
      · by_cases hpol : pol [d] files = true
        · simp [mainExitCode, process_directory_recursively, hro, hpol]
        · simp [mainExitCode, process_directory_recursively, hro, hpol]
      · simp [mainExitCode, process_directory_recursively, hro]
    | cons a b c d2 =>
      by_cases hro : readOk = true
      · have hnn := (process_no_panic pol).2 (.cons a b c d2) [d] hu
        rcases hps : process_subdirs pol [d] (.cons a b c d2) with ⟨o, cs⟩
        rw [hps] at hnn
        cases o with
        | none => simp at hnn
        | some l =>
          simp [mainExitCode, process_directory_recursively, hro, hps]
      · simp [mainExitCode, process_directory_recursively, hro]

/-- Witness for C6: a non-leaf root with one failing child (unreadable
subdirectory) and one healthy child still returns Ok with the files of the healthy
child, and the program exits 0. -/
theorem C6_subtree_isolation_witness :
    (process_subdirs polTrue ["r"]
        (.cons "bad" true (.node false [] .nil)
          (.cons "good" true (.node true [⟨"z.png", 7⟩] .nil) .nil))).1 =
      some [["r", "good", "z.png"]] ∧
    mainExitCode polTrue "r" true true
        (.node true []
          (.cons "bad" true (.node false [] .nil)
            (.cons "good" true (.node true [⟨"z.png", 7⟩] .nil) .nil))) = 0 := by
  constructor
  · have h := C6_subtree_isolation.1 polTrue ["r"] "bad" (.node false [] .nil)
      (.cons "good" true (.node true [⟨"z.png", 7⟩] .nil) .nil) (by rfl)
    rw [h]
    rfl
  · have h := (C6_subtree_isolation.2.2.2 polTrue "r" true []
      (.cons "bad" true (.node false [] .nil)
        (.cons "good" true (.node true [⟨"z.png", 7⟩] .nil) .nil))
      (by rfl)).mpr ⟨rfl, fun h2 => Forest.noConfusion h2⟩
    exact h

/-- Dir forest containing an entry whose name is not valid UTF-8. -/
def forestHasBadName : Forest → Bool
  | .nil => false
  | .cons _ u8 _ rest => !u8 || forestHasBadName rest

lemma subdirs_bad_name (pol : List String → List FileEnt → Bool) :
    ∀ sf, ∀ p, forestHasBadName sf = true →
      (process_subdirs pol p sf).1 = none := by
  have h := tree_forest_induction (fun _ => True)
    (fun sf => ∀ p, forestHasBadName sf = true →
      (process_subdirs pol p sf).1 = none)
    (fun _ _ _ _ => trivial) ?_ ?_
  · exact h.2
  · intro p hbad
    simp [forestHasBadName] at hbad
  · intro name u8 t rest _ ihr p hbad
    by_cases hu8 : u8 = true
    · rw [forestHasBadName, hu8] at hbad
      simp at hbad
      have h2 := ihr p hbad
      rcases hpt : process_directory_recursively pol (p ++ [name]) t with ⟨o1, cs1⟩
      rcases hpr : process_subdirs pol p rest with ⟨o2, cs2⟩
      rw [hpr] at h2
      simp at h2
      subst h2
      cases o1 <;> simp [process_subdirs, hu8, hpt, hpr]
    · simp at hu8
      simp [process_subdirs, hu8]

/-- Claim C10: the traversal unwraps the UTF-8 conversion of each
subdirectory path, so a directory whose listing succeeds but which
contains a subdirectory entry with a non-UTF-8 name makes the whole
traversal panic (abort), rather than return an Err or drop the branch. -/
theorem C10_non_utf8_panic (pol : List String → List FileEnt → Bool)
    (p : List String) (files : List FileEnt) (sf : Forest)
    (hbad : forestHasBadName sf = true) :
    (process_directory_recursively pol p (.node true files sf)).out =
      .panic := by
  cases sf with
  | nil => simp [forestHasBadName] at hbad
  | cons a b c d =>
    have h := subdirs_bad_name pol (.cons a b c d) p hbad
    rcases hps : process_subdirs pol p (.cons a b c d) with ⟨o, cs⟩
    rw [hps] at h
    simp at h
    subst h
    simp [process_directory_recursively, hps]

/-- Witness for C10: a root with a single subdirectory whose entry name
is not valid UTF-8 panics. -/
theorem C10_non_utf8_panic_witness :
    (process_directory_recursively polTrue ["root"]
        (.node true [⟨"a.txt", 1⟩]
          (.cons "bad" false (.node true [] .nil) .nil))).out =
      Outcome.panic := by
  exact C10_non_utf8_panic polTrue ["root"] [⟨"a.txt", 1⟩]
    (.cons "bad" false (.node true [] .nil) .nil) (by rfl)

/-! ## One full run of the clean policy over a tree (main.rs lines 33-81
with clean_dir, no I/O errors)

cleanRun composes process_directory_recursively with clean_dir under
the assumption that every read, metadata query, file deletion and
directory removal succeeds: at each leaf the zero-size and hidden files
are deleted and the directory is removed when all (or none) of its
files were deleted; non-leaf directories keep their own files.  The
result is the tree left on disk (none when this directory itself was
removed), the number of files deleted and the number of directories
removed. -/

/-- The deletion test of clean_dir on a tree file. -/
def shouldCleanEnt (f : FileEnt) : Bool :=
  f.size == 0 || firstCharDot f.name

mutual
def cleanRun : FsTree → Option FsTree × Nat × Nat
  | .node readOk files .nil =>
    if (files.filter fun f => shouldCleanEnt f).length = files.length ∨
        files.isEmpty = true then
      (none, (files.filter fun f => shouldCleanEnt f).length, 1)
    else
      (some (.node readOk (files.filter fun f => !shouldCleanEnt f) .nil),
        (files.filter fun f => shouldCleanEnt f).length, 0)
  | .node readOk files (.cons a b c d) =>
    match cleanForest (.cons a b c d) with
    | (sf, dels, rems) => (some (.node readOk files sf), dels, rems)
def cleanForest : Forest → Forest × Nat × Nat
  | .nil => (.nil, 0, 0)
  | .cons name u8 t rest =>
    match cleanRun t, cleanForest rest with
    | (none, d1, r1), (rf, d2, r2) => (rf, d1 + d2, r1 + r2)
    | (some t2, d1, r1), (rf, d2, r2) =>
      (.cons name u8 t2 rf, d1 + d2, r1 + r2)
end

/-- The per-leaf behaviour of cleanRun is exactly clean_dir on files
whose metadata reads and deletions all succeed. -/
lemma cleanRun_leaf_matches_clean_dir (files : List FileEnt) :
    (cleanLoop (files.map fun f => CFile.mk f.name f.size true true)).1 =
      (files.filter fun f => shouldCleanEnt f).length ∧
    (cleanLoop (files.map fun f => CFile.mk f.name f.size true true)).2 =
      (files.filter fun f => !shouldCleanEnt f).map
        (fun f => CFile.mk f.name f.size true true) ∧
    ((clean_dir (files.map fun f => CFile.mk f.name f.size true true)
        true).2.2 = true ↔
      ((files.filter fun f => shouldCleanEnt f).length = files.length ∨
        files.isEmpty = true)) := by
  obtain ⟨h1, h2⟩ := cleanLoop_characterization
    (files.map fun f => CFile.mk f.name f.size true true)
  have hpred : ∀ f : FileEnt,
      cleanDeletePred (CFile.mk f.name f.size true true) =
        shouldCleanEnt f := by
    intro f
    simp [cleanDeletePred, shouldClean, shouldCleanEnt]
  have hflt : ((files.map fun f => CFile.mk f.name f.size true true).filter
      (fun f => cleanDeletePred f)) =
      (files.filter fun f => shouldCleanEnt f).map
        (fun f => CFile.mk f.name f.size true true) := by
    rw [List.filter_map]
    congr 1
    apply List.filter_congr
    intro f _
    simp [Function.comp, hpred]
  have hflt2 : ((files.map fun f => CFile.mk f.name f.size true true).filter
      (fun f => !cleanDeletePred f)) =
      (files.filter fun f => !shouldCleanEnt f).map
        (fun f => CFile.mk f.name f.size true true) := by
    rw [List.filter_map]
    congr 1
    apply List.filter_congr
    intro f _
    simp [Function.comp, hpred]
  refine ⟨?_, ?_, ?_⟩
  · rw [h2, hflt, List.length_map]
  · rw [h1, hflt2]
  · have h3 := C7_clean_policy
      (files.map fun f => CFile.mk f.name f.size true true) true rfl
    rw [h3.2.2, h2, hflt, List.length_map, List.length_map]
    constructor
    · rintro (h | h)
      · exact Or.inl h
      · right
        simp at h
        simp [h]
    · rintro (h | h)
      · exact Or.inl h
      · right
        simp at h
        simp [h]

lemma cleanRun_none_removed (t : FsTree) (d r : Nat)
    (h : cleanRun t = (none, d, r)) : r = 1 := by
  cases t with
  | node readOk files subs =>
    cases subs with
    | nil =>
      rw [cleanRun] at h
      by_cases hc : (files.filter fun f => shouldCleanEnt f).length =
          files.length ∨ files.isEmpty = true
      · rw [if_pos hc] at h
        cases h
        rfl
      · rw [if_neg hc] at h
        cases h
    | cons a b c d2 =>
      rw [cleanRun] at h
      rcases hcf : cleanForest (.cons a b c d2) with ⟨sf, dels, rems⟩
      rw [hcf] at h
      cases h

/-- Length of a forest (number of immediate subdirectories). -/
def forestLen : Forest → Nat
  | .nil => 0
  | .cons _ _ _ rest => 1 + forestLen rest

lemma cleanRun_idempotent_aux :
    (∀ t, ∀ t2 dels, cleanRun t = (some t2, dels, 0) →
      cleanRun t2 = (some t2, 0, 0)) ∧
    (∀ sf, ∀ sf2 dels, cleanForest sf = (sf2, dels, 0) →
      forestLen sf2 = forestLen sf ∧ cleanForest sf2 = (sf2, 0, 0)) := by
  refine tree_forest_induction
    (fun t => ∀ t2 dels, cleanRun t = (some t2, dels, 0) →
      cleanRun t2 = (some t2, 0, 0))
    (fun sf => ∀ sf2 dels, cleanForest sf = (sf2, dels, 0) →
      forestLen sf2 = forestLen sf ∧ cleanForest sf2 = (sf2, 0, 0))
    ?_ ?_ ?_
  · intro readOk files subs ih t2 dels h
    cases subs with
    | nil =>
      rw [cleanRun] at h
      by_cases hc : (files.filter fun f => shouldCleanEnt f).length =
          files.length ∨ files.isEmpty = true
      · rw [if_pos hc] at h
        cases h
      · rw [if_neg hc] at h
        obtain ⟨rfl, -⟩ : FsTree.node readOk
            (files.filter fun f => !shouldCleanEnt f) .nil = t2 ∧
            (files.filter fun f => shouldCleanEnt f).length = dels := by
          cases h
          exact ⟨rfl, rfl⟩
        have hkept : ((files.filter fun f => !shouldCleanEnt f).filter
            fun f => shouldCleanEnt f) = [] := by
          rw [List.filter_filter]
          apply List.filter_eq_nil.mpr
          intro f _
          simp
        have hkeptne : (files.filter fun f => !shouldCleanEnt f) ≠ [] := by
          intro hnil
          apply hc
          left
          have hall : ∀ f ∈ files, shouldCleanEnt f = true := by
            intro f hf
            have := List.filter_eq_nil.mp hnil f hf
            simpa using this
          rw [List.filter_eq_self.mpr hall]
        rw [cleanRun, if_neg]
        · rw [hkept]
          have hidem : ((files.filter fun f => !shouldCleanEnt f).filter
              fun f => !shouldCleanEnt f) =
              files.filter fun f => !shouldCleanEnt f := by
            apply List.filter_eq_self.mpr
            intro f hf
            exact (List.mem_filter.mp hf).2
          rw [hidem]
          rfl
        · rw [hkept]
          simp only [List.length_nil, List.isEmpty_eq_true]
          rintro (h0 | h0)
          · exact hkeptne (List.eq_nil_of_length_eq_zero h0.symm)
          · exact hkeptne h0
    | cons a b c d2 =>
      rw [cleanRun] at h
      rcases hcf : cleanForest (.cons a b c d2) with ⟨sf, delsF, remsF⟩
      rw [hcf] at h
      obtain ⟨rfl, rfl, hrem⟩ : FsTree.node readOk files sf = t2 ∧
          delsF = dels ∧ remsF = 0 := by
        cases h
        exact ⟨rfl, rfl, rfl⟩
      subst hrem
      obtain ⟨hlen, hcf2⟩ := ih sf delsF hcf
      rw [forestLen] at hlen
      cases sf with
      | nil =>
        simp only [forestLen] at hlen
        omega
      | cons a2 b2 c2 d3 =>
        rw [cleanRun, hcf2]
  · intro sf2 dels h
    rw [cleanForest] at h
    cases h
    exact ⟨rfl, rfl⟩
  · intro name u8 t rest iht ihr sf2 dels h
    rw [cleanForest] at h
    rcases hct : cleanRun t with ⟨ot, d1, r1⟩
    rcases hcr : cleanForest rest with ⟨rf, d2, r2⟩
    rw [hct, hcr] at h
    cases ot with
    | none =>
      have hr1 := cleanRun_none_removed t d1 r1 hct
      simp only [Prod.mk.injEq] at h
      obtain ⟨-, -, hr⟩ := h
      omega
    | some t2 =>
      simp only [Prod.mk.injEq] at h
      obtain ⟨hsf, -, hr⟩ := h
      subst hsf
      have hr1 : r1 = 0 := by omega
      have hr2 : r2 = 0 := by omega
      subst hr1
      subst hr2
      have hct2 := iht t2 d1 hct
      obtain ⟨hlen, hcr2⟩ := ihr rf d2 hcr
      constructor
      · rw [forestLen, forestLen, hlen]
      · rw [cleanForest, hct2, hcr2]

/-- Claim C8 as stated is false at a concrete tree: the root holds
empty.txt (0 bytes) and a subdirectory S whose only file z.bin is
zero-sized.  The first clean run deletes z.bin and removes S — but
leaves empty.txt alone, because the root was not a leaf.  The second
run then finds the root a leaf, deletes empty.txt and removes the
root: one more deletion and one more removal, not a no-op. -/
theorem C8_counterexample :
    cleanRun (.node true [⟨"empty.txt", 0⟩]
        (.cons "S" true (.node true [⟨"z.bin", 0⟩] .nil) .nil)) =
      (some (.node true [⟨"empty.txt", 0⟩] .nil), 1, 1) ∧
    cleanRun (.node true [⟨"empty.txt", 0⟩] .nil) = (none, 1, 1) := by
  exact ⟨rfl, rfl⟩

/-- Claim C8 amended: a second clean run is a no-op (zero deletions,
zero directory removals) on every tree on which the first run removed
no directory.  (When the first run removes directories, a parent can
become a leaf and the second run may delete further files, as the
counterexample shows.) -/
theorem C8_clean_idempotent (t t2 : FsTree) (dels : Nat)
    (h : cleanRun t = (some t2, dels, 0)) :
    cleanRun t2 = (some t2, 0, 0) :=
  cleanRun_idempotent_aux.1 t t2 dels h

/-- Witness for C8: a run on a tree with one junk file and one keeper
deletes the junk and removes nothing; the second run is a no-op. -/
theorem C8_clean_idempotent_witness :
    cleanRun (.node true [⟨"keep.txt", 5⟩] .nil) =
      (some (.node true [⟨"keep.txt", 5⟩] .nil), 0, 0) := by
  exact C8_clean_idempotent
    (.node true [⟨"junk", 0⟩, ⟨"keep.txt", 5⟩] .nil)
    (.node true [⟨"keep.txt", 5⟩] .nil) 1 (by rfl)
